import Mathlib

/-!
Shallow embedding of the SBOM parsing and dependency-graph construction code
of the secure_chain_kg frontend, together with proofs about the claims of its
specification.

Embedded source files:
- `src/frontend/src/utils/sbomParser.js` (`parseSbomData`, `parseCustomJson`,
  `parseSpdx`, `parseCycloneDx`)
- `src/frontend/src/components/DependencyGraph.jsx`
  (`convertSbomToGraphElements`, `processDependency`)
- `src/frontend/src/components/IndentedTreeView.jsx` (version sorting and the
  initially expanded node of the tree view)

Modelling conventions:
- JS objects are modelled by structures; a field that may be absent (or given
  a non-truthy value that the code treats like absence) is an `Option`.
- A thrown JS `Error` is `Except.error` carrying the message string.
- JS `Set` objects are modelled as `List String` used only through
  `List.contains`; `Array.prototype.push` mutation is modelled by explicit
  state passing of `(elements, seen)` pairs.
- Inside a dependency node, an absent `dependencies` / `vulnerabilities`
  field is observationally identical to an empty array in every embedded
  function (all accesses go through `?.forEach`, `|| []` or `?.length`), so
  `Dep` carries plain lists; at the version level the distinction is kept
  (`Option`) because the code's validation looks at the field itself.
-/

namespace SecureChainKG

/-- A dependency node as it appears in the SBOM JSON: recursive shape
`{name, version_id, dependencies: [...], vulnerabilities: [...]}`. -/
inductive Dep where
  | mk (name : String) (version_id : String)
       (dependencies : List Dep) (vulnerabilities : List String)

def Dep.name : Dep → String
  | .mk n _ _ _ => n

def Dep.version_id : Dep → String
  | .mk _ v _ _ => v

def Dep.dependencies : Dep → List Dep
  | .mk _ _ d _ => d

def Dep.vulnerabilities : Dep → List String
  | .mk _ _ _ vu => vu

/-- A version entry of the canonical SBOM shape
`{version_id, dependencies: [Dep...], vulnerabilities: [...]}`.
`none` models an absent field (or a non-array value the code's guards treat
as absent). -/
structure SbomVersion where
  version_id : String
  dependencies : Option (List Dep)
  vulnerabilities : Option (List String)

/-- The canonical SBOM document `{name, versions: [...]}` consumed by the
graph builder and produced by the parser. -/
structure Sbom where
  name : String
  versions : List SbomVersion

/-- A raw (unvalidated) version object, before `parseCustomJson`
normalization; every field may be missing. A `some ""` version id is kept
distinct from `none` because JS `||` treats both as falsy. -/
structure RawVersion where
  version_id : Option String
  dependencies : Option (List Dep)
  vulnerabilities : Option (List String)

/-- A raw SBOM document as handed to the parser; `name = none` models a
missing name, `versions = none` models a missing or non-array `versions`
field (the code checks `Array.isArray`). -/
structure RawSbom where
  name : Option String
  versions : Option (List RawVersion)

/-- JS truthiness of an optional string: absent, `null` and `""` are falsy. -/
def truthyStr : Option String → Bool
  | none => false
  | some s => s != ""

/-- The per-version normalization done inside `parseCustomJson`
(sbomParser.js lines 29-33): `version_id || 'unknown'`,
`dependencies || []`, `vulnerabilities || []`. -/
def normalizeVersion (v : RawVersion) : SbomVersion :=
  { version_id :=
      match v.version_id with
      | none => "unknown"
      | some s => if s = "" then "unknown" else s
    dependencies := some (v.dependencies.getD [])
    vulnerabilities := some (v.vulnerabilities.getD []) }

/-- `parseCustomJson` (sbomParser.js lines 22-35): rejects a falsy document,
a falsy `name` or a non-array `versions`; otherwise maps every version
through the normalization. The argument is `Option RawSbom` so that a
null/undefined document can be passed. -/
def parseCustomJson (data : Option RawSbom) : Except String Sbom :=
  match data with
  | none => .error "Invalid custom JSON format: missing name or versions"
  | some d =>
    if truthyStr d.name = false then
      .error "Invalid custom JSON format: missing name or versions"
    else
      match d.versions with
      | none => .error "Invalid custom JSON format: missing name or versions"
      | some vs => .ok { name := d.name.getD "", versions := vs.map normalizeVersion }

/-- `parseSpdx` (sbomParser.js lines 38-45): a null check followed by a
delegation to `parseCustomJson` ("Reuse custom JSON parser for SPDX"). -/
def parseSpdx (data : Option RawSbom) : Except String Sbom :=
  match data with
  | none => .error "Invalid SPDX JSON format: data is null or undefined"
  | some d => parseCustomJson (some d)

/-- `parseCycloneDx` (sbomParser.js lines 48-55): a null check followed by a
delegation to `parseCustomJson` ("Reuse custom JSON parser for CycloneDX"). -/
def parseCycloneDx (data : Option RawSbom) : Except String Sbom :=
  match data with
  | none => .error "Invalid CycloneDX JSON format: data is null or undefined"
  | some d => parseCustomJson (some d)

/-- Model of `String.prototype.toLowerCase`: lower-case every character. -/
def jsToLower (s : String) : String :=
  ⟨s.data.map Char.toLower⟩

/-- The `catch` block of `parseSbomData` (sbomParser.js lines 15-18): a
thrown error is rewrapped as `Failed to parse ${format} SBOM: ${message}`;
a successful document passes through. -/
def wrapError (format : String) : Except String Sbom → Except String Sbom
  | .ok v => .ok v
  | .error m => .error ("Failed to parse " ++ format ++ " SBOM: " ++ m)

/-- `parseSbomData` (sbomParser.js lines 2-19): dispatches on
`format.toLowerCase()`, throws on an unrecognized format, and rewraps any
error through the catch block. -/
def parseSbomData (data : Option RawSbom) (format : String) : Except String Sbom :=
  wrapError format
    (match jsToLower format with
     | "json" => parseCustomJson data
     | "spdx" => parseSpdx data
     | "cyclonedx" => parseCycloneDx data
     | _ => .error ("Unsupported SBOM format: " ++ format))

/-- The document produced by a parse, forgetting the error message: `some`
on success, `none` on a thrown error. Used to compare the shapes of parser
results. -/
def docOf : Except String Sbom → Option Sbom
  | .ok v => some v
  | .error _ => none

/-- Whether a parse succeeded (no error thrown). -/
def parseOk (r : Except String Sbom) : Bool :=
  match r with
  | .ok _ => true
  | .error _ => false

/-- The acceptance condition actually enforced by `parseCustomJson`: the
document is non-null, `name` is truthy and `versions` is an array. -/
def acceptedByParser (data : Option RawSbom) : Bool :=
  match data with
  | none => false
  | some d => truthyStr d.name && d.versions.isSome

/-! ### Numeric-aware string comparison

Both `DependencyGraph.jsx` (lines 636-638) and `IndentedTreeView.jsx`
(lines 128-130) sort versions with
`b.version_id.localeCompare(a.version_id, undefined, { numeric: true })`.
The comparison is modelled by splitting a string into maximal digit runs
(compared as natural numbers) and single other characters (compared by code
point), then comparing the token lists lexicographically. -/

/-- One collation token: a maximal digit run read as a number, or a single
non-digit character. -/
inductive NTok where
  | num (n : Nat)
  | ch (c : Char)

mutual

/-- Split a character list into collation tokens: a maximal digit run
becomes one `NTok.num`, any other character becomes an `NTok.ch`. -/
def tokenize : List Char → List NTok
  | [] => []
  | c :: cs =>
    if c.isDigit then tokenizeNum (c.toNat - 48) cs
    else NTok.ch c :: tokenize cs

/-- Continue a digit run whose value so far is `acc`. -/
def tokenizeNum (acc : Nat) : List Char → List NTok
  | [] => [NTok.num acc]
  | c :: cs =>
    if c.isDigit then tokenizeNum (acc * 10 + (c.toNat - 48)) cs
    else NTok.num acc :: NTok.ch c :: tokenize cs

end

/-- Three-way comparison on naturals. -/
def natCmp (m n : Nat) : Ordering :=
  if m < n then .lt else if m = n then .eq else .gt

/-- Compare two collation tokens: numbers numerically, characters by code
point, numbers before other characters. -/
def cmpTok : NTok → NTok → Ordering
  | .num m, .num n => natCmp m n
  | .num _, .ch _ => .lt
  | .ch _, .num _ => .gt
  | .ch a, .ch b => natCmp a.toNat b.toNat

/-- Lexicographic comparison of token lists. -/
def cmpToks : List NTok → List NTok → Ordering
  | [], [] => .eq
  | [], _ :: _ => .lt
  | _ :: _, [] => .gt
  | a :: ta, b :: tb =>
    match cmpTok a b with
    | .eq => cmpToks ta tb
    | o => o

/-- Model of `x.localeCompare(y, undefined, { numeric: true })`: the sign of
the numeric-aware lexical comparison of `x` and `y`. -/
def numericCompare (x y : String) : Ordering :=
  cmpToks (tokenize x.data) (tokenize y.data)

/-- The sort predicate induced by the comparator
`(a, b) => b.version_id.localeCompare(a.version_id, undefined, {numeric: true})`:
`a` may precede `b` exactly when the comparator is non-positive, i.e. the
comparison of `b` against `a` is not `gt`. -/
def versionDescLe (a b : SbomVersion) : Bool :=
  numericCompare b.version_id a.version_id != Ordering.gt

/-- Stable insertion used by the model of `Array.prototype.sort`. -/
def insertLe {α : Type} (le : α → α → Bool) (x : α) : List α → List α
  | [] => [x]
  | y :: ys => if le x y then x :: y :: ys else y :: insertLe le x ys

/-- Model of `Array.prototype.sort` with a consistent comparator: stable
insertion sort with respect to the induced `le`. -/
def sortLe {α : Type} (le : α → α → Bool) : List α → List α
  | [] => []
  | x :: xs => insertLe le x (sortLe le xs)

/-- The descending version sort `[...versions].sort((a, b) =>
b.version_id.localeCompare(a.version_id, undefined, { numeric: true }))`
shared by the graph builder and the tree view. -/
def sortVersionsDesc (vs : List SbomVersion) : List SbomVersion :=
  sortLe versionDescLe vs

/-! ### Graph element construction (`DependencyGraph.jsx` lines 630-686) -/

/-- A Cytoscape element as built by `convertSbomToGraphElements`: either a
node `{data: {id, label, vulnerabilities, originalName, originalVersion},
classes}` or an edge `{data: {id, source, target}}`. -/
inductive Element where
  | node (id : String) (label : String) (vulnerabilities : List String)
         (originalName : String) (originalVersion : String) (classes : String)
  | edge (id : String) (source : String) (target : String)
deriving DecidableEq

/-- `formatNodeId` (DependencyGraph.jsx line 640): `` `${name}-${version}` ``. -/
def formatNodeId (name version : String) : String :=
  name ++ "-" ++ version

/-- The node id of a dependency entry. -/
def Dep.nodeId (d : Dep) : String :=
  formatNodeId d.name d.version_id

/-- The node element pushed for a dependency (DependencyGraph.jsx lines
667-677); its classes are `'vulnerable'` exactly when the vulnerability
list is non-empty. -/
def depNodeElem (d : Dep) : Element :=
  Element.node d.nodeId (d.name ++ "\n" ++ d.version_id) d.vulnerabilities
    d.name d.version_id
    (if d.vulnerabilities.length != 0 then "vulnerable" else "")

mutual

/-- `processDependency` (DependencyGraph.jsx lines 664-686). The state is
the `(elements, seen)` pair the JS code mutates: if the dependency's id is
not yet seen, its node is pushed, the id is added to `seen` and the children
are processed; in every case one edge from the parent is then pushed. -/
def processDependency (dep : Dep) (parentId : String)
    (st : List Element × List String) : List Element × List String :=
  match dep with
  | .mk name vid children vulns =>
    let depId := formatNodeId name vid
    let st1 :=
      if st.2.contains depId then st
      else
        processDepList children depId
          (st.1 ++ [depNodeElem (.mk name vid children vulns)], st.2 ++ [depId])
    (st1.1 ++ [Element.edge (parentId ++ "-" ++ depId) parentId depId], st1.2)

/-- The `dep.dependencies?.forEach(child => processDependency(child, depId,
...))` loop of DependencyGraph.jsx line 680. -/
def processDepList (deps : List Dep) (parentId : String)
    (st : List Element × List String) : List Element × List String :=
  match deps with
  | [] => st
  | d :: ds => processDepList ds parentId (processDependency d parentId st)

end

/-- The `version.dependencies?.forEach(...)` call of DependencyGraph.jsx
line 658: an absent dependency field is skipped by optional chaining. -/
def processChildren (deps : Option (List Dep)) (parentId : String)
    (st : List Element × List String) : List Element × List String :=
  match deps with
  | none => st
  | some l => processDepList l parentId st

/-- Model of `String.prototype.trim`: drop whitespace from both ends. -/
def jsTrim (s : String) : String :=
  ⟨((s.data.dropWhile Char.isWhitespace).reverse.dropWhile Char.isWhitespace).reverse⟩

/-- The node element pushed for a root version (DependencyGraph.jsx lines
644-653): classes are
`` `${idx === 0 ? 'root' : ''} ${version.vulnerabilities?.length ? 'vulnerable' : ''}`.trim() ``. -/
def rootVersionElem (name : String) (v : SbomVersion) (idx : Nat) : Element :=
  Element.node (formatNodeId name v.version_id) (name ++ "\n" ++ v.version_id)
    (v.vulnerabilities.getD []) name v.version_id
    (jsTrim ((if idx == 0 then "root" else "") ++ " " ++
      (if (v.vulnerabilities.getD []).length != 0 then "vulnerable" else "")))

/-- The `sorted.forEach((version, idx) => ...)` loop of
DependencyGraph.jsx lines 642-659: push the version's node, add its id to
`seen`, then process its dependencies. -/
def processVersions (name : String) (vs : List SbomVersion) (idx : Nat)
    (st : List Element × List String) : List Element × List String :=
  match vs with
  | [] => st
  | v :: rest =>
    let id := formatNodeId name v.version_id
    let st1 := processChildren v.dependencies id
      (st.1 ++ [rootVersionElem name v idx], st.2 ++ [id])
    processVersions name rest (idx + 1) st1

/-- `convertSbomToGraphElements` (DependencyGraph.jsx lines 630-662): an
empty element list for a falsy name (the `versions` field of the model is
always an array); otherwise the sorted versions are materialized. -/
def convertSbomToGraphElements (sbom : Sbom) : List Element :=
  if sbom.name = "" then []
  else (processVersions sbom.name (sortVersionsDesc sbom.versions) 0 ([], [])).1

/-! ### Tree view (`IndentedTreeView.jsx`) -/

/-- The initially expanded node set of the tree view (IndentedTreeView.jsx
lines 10-16): the id built from the FIRST version of the unsorted input
list, or the empty set when there are no versions. -/
def initialExpandedNodes (data : Sbom) : List String :=
  match data.versions with
  | [] => []
  | v :: _ => [formatNodeId data.name v.version_id]

/-- The sorted version list the tree view renders (IndentedTreeView.jsx
lines 128-130); `renderNode` receives `isRoot = (index === 0)` on it. -/
def treeSortedVersions (data : Sbom) : List SbomVersion :=
  sortVersionsDesc data.versions

/-! ### Observation helpers used by the theorems -/

/-- The id of a node element, `none` for an edge. -/
def Element.nodeId? : Element → Option String
  | .node i _ _ _ _ _ => some i
  | .edge _ _ _ => none

/-- The ids of the node elements of an element list, in order. -/
def nodeIds (els : List Element) : List String :=
  els.filterMap Element.nodeId?

/-- The source of an edge element, `none` for a node. -/
def Element.source? : Element → Option String
  | .node _ _ _ _ _ _ => none
  | .edge _ s _ => some s

/-- The sources of the edge elements of an element list. -/
def edgeSources (els : List Element) : List String :=
  els.filterMap Element.source?

/-- The target of an edge element, `none` for a node. -/
def Element.target? : Element → Option String
  | .node _ _ _ _ _ _ => none
  | .edge _ _ t => some t

/-- The targets of the edge elements of an element list. -/
def edgeTargets (els : List Element) : List String :=
  els.filterMap Element.target?

/-- Whether an element is a node carrying the `root` class (the class
string of a node is one of `""`, `"vulnerable"`, `"root"`,
`"root vulnerable"`, so the `root` class is present exactly when the string
starts with `root`). -/
def isRootMarked : Element → Bool
  | .node _ _ _ _ _ c => List.isPrefixOf "root".data c.data
  | .edge _ _ _ => false

mutual

/-- All node ids occurring in a dependency subtree (the dependency's own id
followed by those of its descendants). -/
def allDepIds : Dep → List String
  | .mk n v children _ => formatNodeId n v :: allDepIdsList children

/-- All node ids occurring in a list of dependency subtrees. -/
def allDepIdsList : List Dep → List String
  | [] => []
  | d :: ds => allDepIds d ++ allDepIdsList ds

end

/-- All node ids occurring in an optional dependency list. -/
def allDepIdsOpt : Option (List Dep) → List String
  | none => []
  | some l => allDepIdsList l

/-- All dependency-node ids occurring anywhere below the versions of an
SBOM document (root version ids themselves excluded). -/
def allSbomDepIds : List SbomVersion → List String
  | [] => []
  | v :: rest => allDepIdsOpt v.dependencies ++ allSbomDepIds rest

/-! ### Properties of the numeric-aware comparison -/

theorem natCmp_of_lt {m n : Nat} (h : m < n) : natCmp m n = .lt := by
  unfold natCmp
  rw [if_pos h]

theorem natCmp_of_eq {m n : Nat} (h : m = n) : natCmp m n = .eq := by
  unfold natCmp
  rw [if_neg (by omega), if_pos h]

theorem natCmp_of_gt {m n : Nat} (h : n < m) : natCmp m n = .gt := by
  unfold natCmp
  rw [if_neg (by omega), if_neg (by omega)]

theorem natCmp_eq_iff {m n : Nat} : natCmp m n = .eq ↔ m = n := by
  constructor
  · intro h
    rcases Nat.lt_trichotomy m n with h' | h' | h'
    · rw [natCmp_of_lt h'] at h
      exact absurd h (by simp)
    · exact h'
    · rw [natCmp_of_gt h'] at h
      exact absurd h (by simp)
  · exact natCmp_of_eq

theorem natCmp_lt_iff {m n : Nat} : natCmp m n = .lt ↔ m < n := by
  constructor
  · intro h
    rcases Nat.lt_trichotomy m n with h' | h' | h'
    · exact h'
    · rw [natCmp_of_eq h'] at h
      exact absurd h (by simp)
    · rw [natCmp_of_gt h'] at h
      exact absurd h (by simp)
  · exact natCmp_of_lt

theorem natCmp_swap (m n : Nat) : natCmp n m = (natCmp m n).swap := by
  rcases Nat.lt_trichotomy m n with h | h | h
  · rw [natCmp_of_lt h, natCmp_of_gt h]
    rfl
  · rw [natCmp_of_eq h, natCmp_of_eq h.symm]
    rfl
  · rw [natCmp_of_gt h, natCmp_of_lt h]
    rfl

theorem charToNat_inj {a b : Char} (h : a.toNat = b.toNat) : a = b :=
  Char.ext (UInt32.ext h)

theorem cmpTok_eq_iff {a b : NTok} : cmpTok a b = .eq ↔ a = b := by
  cases a <;> cases b <;> simp [cmpTok, natCmp_eq_iff]
  exact ⟨fun h => charToNat_inj h, fun h => by rw [h]⟩

theorem cmpTok_lt_trans {a b c : NTok} (h1 : cmpTok a b = .lt) (h2 : cmpTok b c = .lt) :
    cmpTok a c = .lt := by
  cases a with
  | num m =>
    cases b with
    | num n =>
      cases c with
      | num k =>
        simp only [cmpTok, natCmp_lt_iff] at h1 h2 ⊢
        omega
      | ch c2 => simp [cmpTok]
    | ch b2 =>
      cases c with
      | num k => simp [cmpTok] at h2
      | ch c2 => simp [cmpTok]
  | ch a2 =>
    cases b with
    | num n => simp [cmpTok] at h1
    | ch b2 =>
      cases c with
      | num k => simp [cmpTok] at h2
      | ch c2 =>
        simp only [cmpTok, natCmp_lt_iff] at h1 h2 ⊢
        omega

theorem cmpTok_swap (a b : NTok) : cmpTok b a = (cmpTok a b).swap := by
  cases a with
  | num m =>
    cases b with
    | num n => exact natCmp_swap m n
    | ch c => rfl
  | ch c =>
    cases b with
    | num n => rfl
    | ch d => exact natCmp_swap c.toNat d.toNat

theorem cmpToks_swap : ∀ x y : List NTok, cmpToks y x = (cmpToks x y).swap
  | [], [] => rfl
  | [], _ :: _ => rfl
  | _ :: _, [] => rfl
  | a :: ta, b :: tb => by
    simp only [cmpToks, cmpTok_swap a b]
    cases h : cmpTok a b <;> simp [Ordering.swap, cmpToks_swap ta tb]

theorem cmpToks_nle_nle {x y z : List NTok} :
    cmpToks x y ≠ .gt → cmpToks y z ≠ .gt → cmpToks x z ≠ .gt := by
  induction x generalizing y z with
  | nil =>
    intro _ _
    cases z <;> simp [cmpToks]
  | cons a ta ih =>
    intro h1 h2
    cases y with
    | nil => simp [cmpToks] at h1
    | cons b tb =>
      cases z with
      | nil => simp [cmpToks] at h2
      | cons c tc =>
        simp only [cmpToks] at h1 h2 ⊢
        cases hab : cmpTok a b with
        | gt => simp [hab] at h1
        | eq =>
          have hb : a = b := cmpTok_eq_iff.mp hab
          subst hb
          simp only [hab] at h1
          cases hac : cmpTok a c with
          | gt => simp [hac] at h2
          | lt => simp
          | eq => simpa [hac] using ih h1 (by simpa [hac] using h2)
        | lt =>
          cases hbc : cmpTok b c with
          | gt => simp [hbc] at h2
          | eq =>
            have hb : b = c := cmpTok_eq_iff.mp hbc
            subst hb
            simp [hab]
          | lt => simp [cmpTok_lt_trans hab hbc]

theorem cmpToks_total (x y : List NTok) : cmpToks x y ≠ .gt ∨ cmpToks y x ≠ .gt := by
  rw [cmpToks_swap x y]
  cases cmpToks x y <;> simp [Ordering.swap]

theorem versionDescLe_iff {a b : SbomVersion} :
    versionDescLe a b = true ↔
      cmpToks (tokenize b.version_id.data) (tokenize a.version_id.data) ≠ .gt := by
  unfold versionDescLe numericCompare
  generalize cmpToks _ _ = o
  cases o <;> decide

theorem versionDescLe_trans {a b c : SbomVersion}
    (h1 : versionDescLe a b = true) (h2 : versionDescLe b c = true) :
    versionDescLe a c = true := by
  rw [versionDescLe_iff] at h1 h2 ⊢
  exact cmpToks_nle_nle h2 h1

theorem versionDescLe_total (a b : SbomVersion) :
    versionDescLe a b = true ∨ versionDescLe b a = true := by
  rw [versionDescLe_iff, versionDescLe_iff]
  rcases cmpToks_total (tokenize b.version_id.data) (tokenize a.version_id.data) with h | h
  · exact Or.inl h
  · exact Or.inr h

/-! ### Properties of the sort model -/

theorem insertLe_cons_eq {α : Type} (le : α → α → Bool) (x z : α) (zs : List α) :
    insertLe le x (z :: zs) = if le x z then x :: z :: zs else z :: insertLe le x zs :=
  rfl

theorem mem_insertLe {α : Type} (le : α → α → Bool) (x y : α) :
    ∀ l : List α, y ∈ insertLe le x l ↔ y = x ∨ y ∈ l
  | [] => by simp [insertLe]
  | z :: zs => by
    rw [insertLe_cons_eq]
    by_cases h : le x z = true
    · rw [if_pos h]
      simp only [List.mem_cons]
    · rw [if_neg (by simp [h])]
      rw [List.mem_cons, mem_insertLe le x y zs]
      simp only [List.mem_cons]
      tauto

theorem mem_sortLe {α : Type} (le : α → α → Bool) (y : α) :
    ∀ l : List α, y ∈ sortLe le l ↔ y ∈ l
  | [] => by simp [sortLe]
  | z :: zs => by
    simp [sortLe, mem_insertLe, mem_sortLe le y zs]

theorem perm_insertLe {α : Type} (le : α → α → Bool) (x : α) :
    ∀ l : List α, List.Perm (insertLe le x l) (x :: l)
  | [] => List.Perm.refl _
  | z :: zs => by
    rw [insertLe_cons_eq]
    by_cases h : le x z = true
    · rw [if_pos h]
    · rw [if_neg (by simp [h])]
      exact ((perm_insertLe le x zs).cons z).trans (List.Perm.swap x z zs)

theorem perm_sortLe {α : Type} (le : α → α → Bool) :
    ∀ l : List α, List.Perm (sortLe le l) l
  | [] => List.Perm.refl _
  | z :: zs =>
    (perm_insertLe le z (sortLe le zs)).trans ((perm_sortLe le zs).cons z)

theorem pairwise_insertLe {α : Type} (le : α → α → Bool)
    (htot : ∀ a b, le a b = true ∨ le b a = true)
    (htrans : ∀ a b c, le a b = true → le b c = true → le a c = true) (x : α) :
    ∀ l : List α, l.Pairwise (fun a b => le a b = true) →
      (insertLe le x l).Pairwise (fun a b => le a b = true)
  | [], _ => by simp [insertLe]
  | z :: zs, h => by
    rcases List.pairwise_cons.mp h with ⟨hz, hzs⟩
    rw [insertLe_cons_eq]
    by_cases hxz : le x z = true
    · rw [if_pos hxz]
      refine List.pairwise_cons.mpr ⟨?_, h⟩
      intro b hb
      rcases List.mem_cons.mp hb with hb | hb
      · rw [hb]
        exact hxz
      · exact htrans x z b hxz (hz b hb)
    · rw [if_neg (by simp [hxz])]
      refine List.pairwise_cons.mpr ⟨?_, pairwise_insertLe le htot htrans x zs hzs⟩
      intro b hb
      rcases (mem_insertLe le x b zs).mp hb with hb | hb
      · rw [hb]
        rcases htot x z with h' | h'
        · exact absurd h' hxz
        · exact h'
      · exact hz b hb

theorem pairwise_sortLe {α : Type} (le : α → α → Bool)
    (htot : ∀ a b, le a b = true ∨ le b a = true)
    (htrans : ∀ a b c, le a b = true → le b c = true → le a c = true) :
    ∀ l : List α, (sortLe le l).Pairwise (fun a b => le a b = true)
  | [] => by simp [sortLe]
  | z :: zs => pairwise_insertLe le htot htrans z _ (pairwise_sortLe le htot htrans zs)

/-- The version sort is pairwise descending under the numeric-aware
comparison. -/
theorem sortVersionsDesc_sorted (vs : List SbomVersion) :
    (sortVersionsDesc vs).Pairwise (fun a b => versionDescLe a b = true) :=
  pairwise_sortLe versionDescLe versionDescLe_total
    (fun _ _ _ => versionDescLe_trans) vs

theorem mem_sortVersionsDesc {v : SbomVersion} {vs : List SbomVersion} :
    v ∈ sortVersionsDesc vs ↔ v ∈ vs :=
  mem_sortLe versionDescLe v vs

/-! ### Basic facts about element observations -/

theorem nodeIds_append (a b : List Element) : nodeIds (a ++ b) = nodeIds a ++ nodeIds b := by
  simp [nodeIds]

theorem edgeSources_append (a b : List Element) :
    edgeSources (a ++ b) = edgeSources a ++ edgeSources b := by
  simp [edgeSources]

theorem nodeIds_edge (i s t : String) : nodeIds [Element.edge i s t] = [] := rfl

theorem nodeIds_depNodeElem (d : Dep) : nodeIds [depNodeElem d] = [d.nodeId] := by
  cases d
  rfl

theorem nodeIds_rootVersionElem (name : String) (v : SbomVersion) (idx : Nat) :
    nodeIds [rootVersionElem name v idx] = [formatNodeId name v.version_id] := rfl

theorem edgeSources_edge (i s t : String) : edgeSources [Element.edge i s t] = [s] := rfl

theorem edgeSources_depNodeElem (d : Dep) : edgeSources [depNodeElem d] = [] := by
  cases d
  rfl

theorem edgeSources_rootVersionElem (name : String) (v : SbomVersion) (idx : Nat) :
    edgeSources [rootVersionElem name v idx] = [] := rfl

theorem isRootMarked_node (a b d e cls : String) (c : List String) :
    isRootMarked (Element.node a b c d e cls) = List.isPrefixOf "root".data cls.data := rfl

theorem isRootMarked_edge (i s t : String) : isRootMarked (Element.edge i s t) = false := rfl

theorem isRootMarked_depNodeElem (d : Dep) : isRootMarked (depNodeElem d) = false := by
  cases d with
  | mk n v ch vu =>
    by_cases h : (vu.length != 0) = true
    · simp only [depNodeElem, Dep.vulnerabilities, Dep.nodeId, Dep.name, Dep.version_id,
        isRootMarked_node, if_pos h]
      decide
    · simp only [depNodeElem, Dep.vulnerabilities, Dep.nodeId, Dep.name, Dep.version_id,
        isRootMarked_node, if_neg h]
      decide

theorem isRootMarked_rootVersionElem (name : String) (v : SbomVersion) (idx : Nat) :
    isRootMarked (rootVersionElem name v idx) = (idx == 0) := by
  by_cases hv : (((v.vulnerabilities.getD []).length != 0)) = true
  · cases idx with
    | zero =>
      simp only [rootVersionElem, isRootMarked_node, if_pos hv,
        if_pos (show ((0 : Nat) == 0) = true from rfl)]
      decide
    | succ k =>
      simp only [rootVersionElem, isRootMarked_node, if_pos hv,
        if_neg (show ¬((k + 1 == 0) = true) by simp),
        (show (k + 1 == 0) = false by simp)]
      decide
  · cases idx with
    | zero =>
      simp only [rootVersionElem, isRootMarked_node, if_neg hv,
        if_pos (show ((0 : Nat) == 0) = true from rfl)]
      decide
    | succ k =>
      simp only [rootVersionElem, isRootMarked_node, if_neg hv,
        if_neg (show ¬((k + 1 == 0) = true) by simp),
        (show (k + 1 == 0) = false by simp)]
      decide

/-! ### Unfolding equations for the traversal -/

theorem processDependency_eq (n v : String) (ch : List Dep) (vu : List String)
    (p : String) (st : List Element × List String) :
    processDependency (.mk n v ch vu) p st =
      (let depId := formatNodeId n v
       let st1 :=
         if st.2.contains depId then st
         else processDepList ch depId
           (st.1 ++ [depNodeElem (.mk n v ch vu)], st.2 ++ [depId])
       (st1.1 ++ [Element.edge (p ++ "-" ++ depId) p depId], st1.2)) := by
  rw [processDependency]

theorem processDepList_nil (p : String) (st : List Element × List String) :
    processDepList [] p st = st := by
  rw [processDepList]

theorem processDepList_cons (d : Dep) (ds : List Dep) (p : String)
    (st : List Element × List String) :
    processDepList (d :: ds) p st = processDepList ds p (processDependency d p st) := by
  rw [processDepList]

/-! ### State-growth invariants of the traversal -/

mutual

/-- `processDependency` only appends to the element list and the seen set. -/
theorem processDependency_ext : ∀ (dep : Dep) (p : String)
    (st : List Element × List String),
    ∃ e s, (processDependency dep p st).1 = st.1 ++ e ∧
      (processDependency dep p st).2 = st.2 ++ s
  | .mk n v ch vu, p, st => by
    simp only [processDependency_eq]
    by_cases h : st.2.contains (formatNodeId n v) = true
    · rw [if_pos h]
      exact ⟨[Element.edge (p ++ "-" ++ formatNodeId n v) p (formatNodeId n v)], [],
        rfl, by simp⟩
    · rw [if_neg h]
      obtain ⟨e1, s1, he, hs⟩ :=
        processDepList_ext ch (formatNodeId n v)
          (st.1 ++ [depNodeElem (.mk n v ch vu)], st.2 ++ [formatNodeId n v])
      refine ⟨[depNodeElem (.mk n v ch vu)] ++ e1 ++
        [Element.edge (p ++ "-" ++ formatNodeId n v) p (formatNodeId n v)],
        [formatNodeId n v] ++ s1, ?_, ?_⟩
      · rw [he]
        simp
      · rw [hs]
        simp

/-- `processDepList` only appends to the element list and the seen set. -/
theorem processDepList_ext : ∀ (l : List Dep) (p : String)
    (st : List Element × List String),
    ∃ e s, (processDepList l p st).1 = st.1 ++ e ∧
      (processDepList l p st).2 = st.2 ++ s
  | [], p, st => ⟨[], [], by simp [processDepList_nil], by simp [processDepList_nil]⟩
  | d :: ds, p, st => by
    rw [processDepList_cons]
    obtain ⟨e1, s1, he1, hs1⟩ := processDependency_ext d p st
    obtain ⟨e2, s2, he2, hs2⟩ := processDepList_ext ds p (processDependency d p st)
    exact ⟨e1 ++ e2, s1 ++ s2, by simp [he2, he1], by simp [hs2, hs1]⟩

end

theorem processChildren_ext (deps : Option (List Dep)) (p : String)
    (st : List Element × List String) :
    ∃ e s, (processChildren deps p st).1 = st.1 ++ e ∧
      (processChildren deps p st).2 = st.2 ++ s := by
  cases deps with
  | none => exact ⟨[], [], by simp [processChildren], by simp [processChildren]⟩
  | some l => exact processDepList_ext l p st

mutual

/-- Everything `processDependency` adds to the seen set is a node id of the
processed dependency subtree. -/
theorem processDependency_seen_bound : ∀ (dep : Dep) (p : String)
    (st : List Element × List String) (x : String),
    x ∈ (processDependency dep p st).2 → x ∈ st.2 ∨ x ∈ allDepIds dep
  | .mk n v ch vu, p, st, x => by
    simp only [processDependency_eq]
    by_cases h : st.2.contains (formatNodeId n v) = true
    · rw [if_pos h]
      exact Or.inl
    · rw [if_neg h]
      intro hx
      rcases processDepList_seen_bound ch (formatNodeId n v) _ x hx with hx' | hx'
      · rcases List.mem_append.mp hx' with hx'' | hx''
        · exact Or.inl hx''
        · refine Or.inr ?_
          rw [allDepIds]
          exact List.mem_cons.mpr (Or.inl (List.mem_singleton.mp hx''))
      · refine Or.inr ?_
        rw [allDepIds]
        exact List.mem_cons.mpr (Or.inr hx')

/-- Everything `processDepList` adds to the seen set is a node id of one of
the processed subtrees. -/
theorem processDepList_seen_bound : ∀ (l : List Dep) (p : String)
    (st : List Element × List String) (x : String),
    x ∈ (processDepList l p st).2 → x ∈ st.2 ∨ x ∈ allDepIdsList l
  | [], p, st, x => by
    rw [processDepList_nil]
    exact Or.inl
  | d :: ds, p, st, x => by
    rw [processDepList_cons]
    intro hx
    rcases processDepList_seen_bound ds p (processDependency d p st) x hx with hx' | hx'
    · rcases processDependency_seen_bound d p st x hx' with hx'' | hx''
      · exact Or.inl hx''
      · refine Or.inr ?_
        rw [allDepIdsList]
        exact List.mem_append.mpr (Or.inl hx'')
    · refine Or.inr ?_
      rw [allDepIdsList]
      exact List.mem_append.mpr (Or.inr hx')

end

mutual

/-- `processDependency` preserves the invariant that node ids are distinct
and every node id is in the seen set. -/
theorem processDependency_nodup : ∀ (dep : Dep) (p : String)
    (st : List Element × List String),
    (nodeIds st.1).Nodup → (∀ i ∈ nodeIds st.1, i ∈ st.2) →
    (nodeIds (processDependency dep p st).1).Nodup ∧
      (∀ i ∈ nodeIds (processDependency dep p st).1, i ∈ (processDependency dep p st).2)
  | .mk n v ch vu, p, st => by
    intro h1 h2
    simp only [processDependency_eq]
    by_cases h : st.2.contains (formatNodeId n v) = true
    · rw [if_pos h]
      constructor
      · simpa [nodeIds_append, nodeIds_edge] using h1
      · intro i hi
        exact h2 i (by simpa [nodeIds_append, nodeIds_edge] using hi)
    · rw [if_neg h]
      have hnotin : formatNodeId n v ∉ st.2 := by
        simpa using h
      have hnotin' : formatNodeId n v ∉ nodeIds st.1 := fun hmem => hnotin (h2 _ hmem)
      have hn1 : (nodeIds (st.1 ++ [depNodeElem (.mk n v ch vu)])).Nodup := by
        rw [nodeIds_append, nodeIds_depNodeElem]
        rw [List.nodup_append]
        exact ⟨h1, List.nodup_singleton _, by simpa [Dep.nodeId, Dep.name, Dep.version_id]⟩
      have hn2 : ∀ i ∈ nodeIds (st.1 ++ [depNodeElem (.mk n v ch vu)]),
          i ∈ st.2 ++ [formatNodeId n v] := by
        intro i hi
        rw [nodeIds_append, nodeIds_depNodeElem] at hi
        rcases List.mem_append.mp hi with hi' | hi'
        · exact List.mem_append.mpr (Or.inl (h2 i hi'))
        · simp only [Dep.nodeId, Dep.name, Dep.version_id] at hi'
          exact List.mem_append.mpr (Or.inr hi')
      obtain ⟨hr1, hr2⟩ := processDepList_nodup ch (formatNodeId n v)
        (st.1 ++ [depNodeElem (.mk n v ch vu)], st.2 ++ [formatNodeId n v]) hn1 hn2
      constructor
      · simpa [nodeIds_append, nodeIds_edge] using hr1
      · intro i hi
        exact hr2 i (by simpa [nodeIds_append, nodeIds_edge] using hi)

/-- `processDepList` preserves the invariant that node ids are distinct and
every node id is in the seen set. -/
theorem processDepList_nodup : ∀ (l : List Dep) (p : String)
    (st : List Element × List String),
    (nodeIds st.1).Nodup → (∀ i ∈ nodeIds st.1, i ∈ st.2) →
    (nodeIds (processDepList l p st).1).Nodup ∧
      (∀ i ∈ nodeIds (processDepList l p st).1, i ∈ (processDepList l p st).2)
  | [], p, st => by
    intro h1 h2
    rw [processDepList_nil]
    exact ⟨h1, h2⟩
  | d :: ds, p, st => by
    intro h1 h2
    rw [processDepList_cons]
    obtain ⟨h1', h2'⟩ := processDependency_nodup d p st h1 h2
    exact processDepList_nodup ds p (processDependency d p st) h1' h2'

end

mutual

/-- `processDependency` never adds a root-marked element. -/
theorem processDependency_rootCount : ∀ (dep : Dep) (p : String)
    (st : List Element × List String),
    (processDependency dep p st).1.countP (fun e => isRootMarked e) =
      st.1.countP (fun e => isRootMarked e)
  | .mk n v ch vu, p, st => by
    simp only [processDependency_eq]
    by_cases h : st.2.contains (formatNodeId n v) = true
    · rw [if_pos h]
      simp [List.countP_append, List.countP_cons, isRootMarked_edge]
    · rw [if_neg h]
      rw [List.countP_append,
        processDepList_rootCount ch (formatNodeId n v) _,
        List.countP_append]
      simp [List.countP_cons, isRootMarked_depNodeElem, isRootMarked_edge]

/-- `processDepList` never adds a root-marked element. -/
theorem processDepList_rootCount : ∀ (l : List Dep) (p : String)
    (st : List Element × List String),
    (processDepList l p st).1.countP (fun e => isRootMarked e) =
      st.1.countP (fun e => isRootMarked e)
  | [], p, st => by
    rw [processDepList_nil]
  | d :: ds, p, st => by
    rw [processDepList_cons,
      processDepList_rootCount ds p (processDependency d p st),
      processDependency_rootCount d p st]

end

mutual

/-- Every edge source `processDependency` adds is the parent id or a node id
of the processed subtree. -/
theorem processDependency_src_bound : ∀ (dep : Dep) (p : String)
    (st : List Element × List String) (x : String),
    x ∈ edgeSources (processDependency dep p st).1 →
      x ∈ edgeSources st.1 ∨ x = p ∨ x ∈ allDepIds dep
  | .mk n v ch vu, p, st, x => by
    simp only [processDependency_eq]
    by_cases h : st.2.contains (formatNodeId n v) = true
    · rw [if_pos h]
      intro hx
      rw [edgeSources_append, edgeSources_edge] at hx
      rcases List.mem_append.mp hx with hx' | hx'
      · exact Or.inl hx'
      · exact Or.inr (Or.inl (List.mem_singleton.mp hx'))
    · rw [if_neg h]
      intro hx
      rw [edgeSources_append, edgeSources_edge] at hx
      rcases List.mem_append.mp hx with hx' | hx'
      · rcases processDepList_src_bound ch (formatNodeId n v) _ x hx' with hx'' | hx'' | hx''
        · rw [edgeSources_append, edgeSources_depNodeElem] at hx''
          exact Or.inl (by simpa using hx'')
        · refine Or.inr (Or.inr ?_)
          rw [allDepIds, hx'']
          exact List.mem_cons.mpr (Or.inl rfl)
        · refine Or.inr (Or.inr ?_)
          rw [allDepIds]
          exact List.mem_cons.mpr (Or.inr hx'')
      · exact Or.inr (Or.inl (List.mem_singleton.mp hx'))

/-- Every edge source `processDepList` adds is the parent id or a node id of
one of the processed subtrees. -/
theorem processDepList_src_bound : ∀ (l : List Dep) (p : String)
    (st : List Element × List String) (x : String),
    x ∈ edgeSources (processDepList l p st).1 →
      x ∈ edgeSources st.1 ∨ x = p ∨ x ∈ allDepIdsList l
  | [], p, st, x => by
    rw [processDepList_nil]
    exact Or.inl
  | d :: ds, p, st, x => by
    rw [processDepList_cons]
    intro hx
    rcases processDepList_src_bound ds p (processDependency d p st) x hx with hx' | hx' | hx'
    · rcases processDependency_src_bound d p st x hx' with hx'' | hx'' | hx''
      · exact Or.inl hx''
      · exact Or.inr (Or.inl hx'')
      · refine Or.inr (Or.inr ?_)
        rw [allDepIdsList]
        exact List.mem_append.mpr (Or.inl hx'')
    · exact Or.inr (Or.inl hx')
    · refine Or.inr (Or.inr ?_)
      rw [allDepIdsList]
      exact List.mem_append.mpr (Or.inr hx')

end

theorem processChildren_seen_bound (deps : Option (List Dep)) (p : String)
    (st : List Element × List String) (x : String)
    (hx : x ∈ (processChildren deps p st).2) : x ∈ st.2 ∨ x ∈ allDepIdsOpt deps := by
  cases deps with
  | none => exact Or.inl hx
  | some l => exact processDepList_seen_bound l p st x hx

theorem processChildren_nodup (deps : Option (List Dep)) (p : String)
    (st : List Element × List String)
    (h1 : (nodeIds st.1).Nodup) (h2 : ∀ i ∈ nodeIds st.1, i ∈ st.2) :
    (nodeIds (processChildren deps p st).1).Nodup ∧
      (∀ i ∈ nodeIds (processChildren deps p st).1, i ∈ (processChildren deps p st).2) := by
  cases deps with
  | none => exact ⟨h1, h2⟩
  | some l => exact processDepList_nodup l p st h1 h2

theorem processChildren_rootCount (deps : Option (List Dep)) (p : String)
    (st : List Element × List String) :
    (processChildren deps p st).1.countP (fun e => isRootMarked e) =
      st.1.countP (fun e => isRootMarked e) := by
  cases deps with
  | none => rfl
  | some l => exact processDepList_rootCount l p st

theorem processChildren_src_bound (deps : Option (List Dep)) (p : String)
    (st : List Element × List String) (x : String)
    (hx : x ∈ edgeSources (processChildren deps p st).1) :
    x ∈ edgeSources st.1 ∨ x = p ∨ x ∈ allDepIdsOpt deps := by
  cases deps with
  | none => exact Or.inl hx
  | some l => exact processDepList_src_bound l p st x hx

theorem processVersions_ext (name : String) :
    ∀ (vs : List SbomVersion) (idx : Nat) (st : List Element × List String),
    ∃ e s, (processVersions name vs idx st).1 = st.1 ++ e ∧
      (processVersions name vs idx st).2 = st.2 ++ s
  | [], idx, st => ⟨[], [], by simp [processVersions], by simp [processVersions]⟩
  | v :: rest, idx, st => by
    rw [show processVersions name (v :: rest) idx st =
      processVersions name rest (idx + 1)
        (processChildren v.dependencies (formatNodeId name v.version_id)
          (st.1 ++ [rootVersionElem name v idx],
           st.2 ++ [formatNodeId name v.version_id])) from rfl]
    obtain ⟨e1, s1, he1, hs1⟩ :=
      processChildren_ext v.dependencies (formatNodeId name v.version_id)
        (st.1 ++ [rootVersionElem name v idx], st.2 ++ [formatNodeId name v.version_id])
    obtain ⟨e2, s2, he2, hs2⟩ := processVersions_ext name rest (idx + 1) _
    refine ⟨[rootVersionElem name v idx] ++ e1 ++ e2,
      [formatNodeId name v.version_id] ++ s1 ++ s2, ?_, ?_⟩
    · rw [he2, he1]
      simp
    · rw [hs2, hs1]
      simp

/-- Whether an optional dependency list is a non-empty array. -/
def depsNonempty : Option (List Dep) → Bool
  | some (_ :: _) => true
  | _ => false

theorem processVersions_cons (name : String) (v : SbomVersion) (rest : List SbomVersion)
    (idx : Nat) (st : List Element × List String) :
    processVersions name (v :: rest) idx st =
      processVersions name rest (idx + 1)
        (processChildren v.dependencies (formatNodeId name v.version_id)
          (st.1 ++ [rootVersionElem name v idx],
           st.2 ++ [formatNodeId name v.version_id])) := rfl

theorem mem_allSbomDepIds {i : String} : ∀ {vs : List SbomVersion},
    i ∈ allSbomDepIds vs ↔ ∃ v, v ∈ vs ∧ i ∈ allDepIdsOpt v.dependencies := by
  intro vs
  induction vs with
  | nil => simp [allSbomDepIds]
  | cons v rest ih =>
    simp only [allSbomDepIds, List.mem_append, ih, List.mem_cons]
    constructor
    · rintro (h | ⟨w, hw, hi⟩)
      · exact ⟨v, Or.inl rfl, h⟩
      · exact ⟨w, Or.inr hw, hi⟩
    · rintro ⟨w, hw | hw, hi⟩
      · exact Or.inl (hw ▸ hi)
      · exact Or.inr ⟨w, hw, hi⟩

/-- Every processed version's node id occurs among the produced node ids. -/
theorem processVersions_mem (name : String) :
    ∀ (vs : List SbomVersion) (idx : Nat) (st : List Element × List String)
      (v : SbomVersion), v ∈ vs →
      formatNodeId name v.version_id ∈ nodeIds (processVersions name vs idx st).1
  | [], idx, st, v, hv => absurd hv (List.not_mem_nil v)
  | w :: rest, idx, st, v, hv => by
    rw [processVersions_cons]
    rcases List.mem_cons.mp hv with hv' | hv'
    · subst hv'
      obtain ⟨e1, s1, he1, hs1⟩ :=
        processChildren_ext v.dependencies (formatNodeId name v.version_id)
          (st.1 ++ [rootVersionElem name v idx], st.2 ++ [formatNodeId name v.version_id])
      obtain ⟨e2, s2, he2, hs2⟩ := processVersions_ext name rest (idx + 1) _
      rw [he2, he1, nodeIds_append, nodeIds_append, nodeIds_append, nodeIds_rootVersionElem]
      simp
    · exact processVersions_mem name rest (idx + 1) _ v hv'

/-- Everything `processVersions` adds to the seen set is a root version id
or a dependency id of the processed versions. -/
theorem processVersions_seen_bound (name : String) :
    ∀ (vs : List SbomVersion) (idx : Nat) (st : List Element × List String) (x : String),
      x ∈ (processVersions name vs idx st).2 →
      x ∈ st.2 ∨ (∃ v, v ∈ vs ∧ x = formatNodeId name v.version_id) ∨
        x ∈ allSbomDepIds vs
  | [], idx, st, x => fun hx => Or.inl hx
  | v :: rest, idx, st, x => by
    rw [processVersions_cons]
    intro hx
    rcases processVersions_seen_bound name rest (idx + 1) _ x hx with hx' | hx' | hx'
    · rcases processChildren_seen_bound v.dependencies _ _ x hx' with hx'' | hx''
      · rcases List.mem_append.mp hx'' with hst | hid
        · exact Or.inl hst
        · exact Or.inr (Or.inl ⟨v, List.mem_cons.mpr (Or.inl rfl),
            List.mem_singleton.mp hid⟩)
      · refine Or.inr (Or.inr ?_)
        rw [allSbomDepIds]
        exact List.mem_append.mpr (Or.inl hx'')
    · obtain ⟨w, hw, hxw⟩ := hx'
      exact Or.inr (Or.inl ⟨w, List.mem_cons.mpr (Or.inr hw), hxw⟩)
    · refine Or.inr (Or.inr ?_)
      rw [allSbomDepIds]
      exact List.mem_append.mpr (Or.inr hx')

/-- Under disjointness of root version ids and dependency ids, the produced
node ids are distinct. -/
theorem processVersions_nodup (name : String) :
    ∀ (vs : List SbomVersion) (idx : Nat) (st : List Element × List String),
      (nodeIds st.1).Nodup →
      (∀ i ∈ nodeIds st.1, i ∈ st.2) →
      (∀ i ∈ st.2, i ∉ vs.map (fun v => formatNodeId name v.version_id)) →
      (vs.map (fun v => formatNodeId name v.version_id)).Nodup →
      (∀ i ∈ allSbomDepIds vs, i ∉ vs.map (fun v => formatNodeId name v.version_id)) →
      (nodeIds (processVersions name vs idx st).1).Nodup
  | [], idx, st, h1, h2, h3, h4, h5 => h1
  | v :: rest, idx, st, h1, h2, h3, h4, h5 => by
    rw [processVersions_cons]
    have hidmem : formatNodeId name v.version_id ∈
        (v :: rest).map (fun v => formatNodeId name v.version_id) := by
      simp
    have hidst2 : formatNodeId name v.version_id ∉ st.2 := fun hmem =>
      h3 _ hmem hidmem
    have hidn : formatNodeId name v.version_id ∉ nodeIds st.1 := fun hmem =>
      hidst2 (h2 _ hmem)
    have hn1 : (nodeIds (st.1 ++ [rootVersionElem name v idx])).Nodup := by
      rw [nodeIds_append, nodeIds_rootVersionElem, List.nodup_append]
      exact ⟨h1, List.nodup_singleton _, by simpa using hidn⟩
    have hn2 : ∀ i ∈ nodeIds (st.1 ++ [rootVersionElem name v idx]),
        i ∈ st.2 ++ [formatNodeId name v.version_id] := by
      intro i hi
      rw [nodeIds_append, nodeIds_rootVersionElem] at hi
      rcases List.mem_append.mp hi with hi' | hi'
      · exact List.mem_append.mpr (Or.inl (h2 i hi'))
      · exact List.mem_append.mpr (Or.inr hi')
    obtain ⟨hr1, hr2⟩ := processChildren_nodup v.dependencies
      (formatNodeId name v.version_id)
      (st.1 ++ [rootVersionElem name v idx], st.2 ++ [formatNodeId name v.version_id])
      hn1 hn2
    have h4m : (formatNodeId name v.version_id ::
        rest.map (fun v => formatNodeId name v.version_id)).Nodup := by
      rw [List.map_cons] at h4
      exact h4
    have h4' := (List.nodup_cons.mp h4m).2
    have hhead : formatNodeId name v.version_id ∉
        rest.map (fun v => formatNodeId name v.version_id) :=
      (List.nodup_cons.mp h4m).1
    have hlift : ∀ {i : String}, i ∈ rest.map (fun v => formatNodeId name v.version_id) →
        i ∈ (v :: rest).map (fun v => formatNodeId name v.version_id) := by
      intro i hi
      rw [List.map_cons]
      exact List.mem_cons.mpr (Or.inr hi)
    refine processVersions_nodup name rest (idx + 1) _ hr1 hr2 ?_ h4' ?_
    · intro i hi hir
      rcases processChildren_seen_bound v.dependencies _ _ i hi with hi' | hi'
      · rcases List.mem_append.mp hi' with hst | hid
        · exact h3 i hst (hlift hir)
        · rw [List.mem_singleton.mp hid] at hir
          exact hhead hir
      · have : i ∈ allSbomDepIds (v :: rest) := by
          rw [allSbomDepIds]
          exact List.mem_append.mpr (Or.inl hi')
        exact h5 i this (hlift hir)
    · intro i hi hir
      have : i ∈ allSbomDepIds (v :: rest) := by
        rw [allSbomDepIds]
        exact List.mem_append.mpr (Or.inr hi)
      exact h5 i this (hlift hir)

/-- From index 1 on, `processVersions` adds no root-marked element. -/
theorem processVersions_rootCount_tail (name : String) :
    ∀ (vs : List SbomVersion) (idx : Nat) (st : List Element × List String),
      1 ≤ idx →
      (processVersions name vs idx st).1.countP (fun e => isRootMarked e) =
        st.1.countP (fun e => isRootMarked e)
  | [], idx, st, _ => rfl
  | v :: rest, idx, st, hidx => by
    rw [processVersions_cons,
      processVersions_rootCount_tail name rest (idx + 1) _ (by omega),
      processChildren_rootCount, List.countP_append]
    have : isRootMarked (rootVersionElem name v idx) = false := by
      rw [isRootMarked_rootVersionElem]
      simp
      omega
    simp [List.countP_cons, this]

/-- Every edge source produced by `processVersions` comes from a version
with a non-empty dependency list or from a dependency id. -/
theorem processVersions_src_bound (name : String) :
    ∀ (vs : List SbomVersion) (idx : Nat) (st : List Element × List String) (x : String),
      x ∈ edgeSources (processVersions name vs idx st).1 →
      x ∈ edgeSources st.1 ∨
        ∃ v, v ∈ vs ∧ depsNonempty v.dependencies = true ∧
          (x = formatNodeId name v.version_id ∨ x ∈ allDepIdsOpt v.dependencies)
  | [], idx, st, x => fun hx => Or.inl hx
  | v :: rest, idx, st, x => by
    rw [processVersions_cons]
    intro hx
    rcases processVersions_src_bound name rest (idx + 1) _ x hx with hx' | hx'
    · have hbase : x ∈ edgeSources (st.1 ++ [rootVersionElem name v idx]) →
          x ∈ edgeSources st.1 := by
        rw [edgeSources_append, edgeSources_rootVersionElem]
        simp
      cases hd : v.dependencies with
      | none =>
        rw [hd] at hx'
        simp only [processChildren] at hx'
        exact Or.inl (hbase hx')
      | some l =>
        cases l with
        | nil =>
          rw [hd] at hx'
          simp only [processChildren, processDepList_nil] at hx'
          exact Or.inl (hbase hx')
        | cons d ds =>
          rw [hd] at hx'
          simp only [processChildren] at hx'
          rcases processDepList_src_bound (d :: ds) _ _ x hx' with hx'' | hx'' | hx''
          · exact Or.inl (hbase hx'')
          · exact Or.inr ⟨v, List.mem_cons.mpr (Or.inl rfl), by simp [depsNonempty, hd],
              Or.inl hx''⟩
          · exact Or.inr ⟨v, List.mem_cons.mpr (Or.inl rfl), by simp [depsNonempty, hd],
              Or.inr (by simp [allDepIdsOpt, hd, hx''])⟩
    · obtain ⟨w, hw, hne, hxw⟩ := hx'
      exact Or.inr ⟨w, List.mem_cons.mpr (Or.inr hw), hne, hxw⟩

/-! ### Parser facts -/

theorem parseOk_wrapError (format : String) (r : Except String Sbom) :
    parseOk (wrapError format r) = parseOk r := by
  cases r <;> rfl

theorem parseSbomData_json (data : Option RawSbom) :
    parseSbomData data "json" = wrapError "json" (parseCustomJson data) := rfl

theorem parseSbomData_spdx (data : Option RawSbom) :
    parseSbomData data "spdx" = wrapError "spdx" (parseSpdx data) := rfl

theorem parseSbomData_cyclonedx (data : Option RawSbom) :
    parseSbomData data "cyclonedx" = wrapError "cyclonedx" (parseCycloneDx data) := rfl

theorem parseOk_parseCustomJson (data : Option RawSbom) :
    parseOk (parseCustomJson data) = acceptedByParser data := by
  cases data with
  | none => rfl
  | some d =>
    by_cases h : truthyStr d.name = false
    · simp only [parseCustomJson, if_pos h, acceptedByParser, h, parseOk]
      simp
    · have ht : truthyStr d.name = true := by
        cases hb : truthyStr d.name
        · exact absurd hb h
        · rfl
      simp only [parseCustomJson, if_neg h, acceptedByParser, ht, Bool.true_and]
      cases hv : d.versions with
      | none => rfl
      | some vs => rfl

theorem parseSpdx_some (d : RawSbom) : parseSpdx (some d) = parseCustomJson (some d) := rfl

theorem parseCycloneDx_some (d : RawSbom) :
    parseCycloneDx (some d) = parseCustomJson (some d) := rfl

theorem parseOk_parseSpdx (data : Option RawSbom) :
    parseOk (parseSpdx data) = acceptedByParser data := by
  cases data with
  | none => rfl
  | some d =>
    rw [parseSpdx_some]
    exact parseOk_parseCustomJson (some d)

theorem parseOk_parseCycloneDx (data : Option RawSbom) :
    parseOk (parseCycloneDx data) = acceptedByParser data := by
  cases data with
  | none => rfl
  | some d =>
    rw [parseCycloneDx_some]
    exact parseOk_parseCustomJson (some d)

theorem parseSbomData_default (data : Option RawSbom) (format : String)
    (h1 : jsToLower format ≠ "json") (h2 : jsToLower format ≠ "spdx")
    (h3 : jsToLower format ≠ "cyclonedx") :
    parseSbomData data format =
      wrapError format (.error ("Unsupported SBOM format: " ++ format)) := by
  unfold parseSbomData
  congr 1
  split <;> simp_all

/-! ### Unbounded-depth materialization -/

theorem contains_eq_false_of_not_mem {l : List String} {x : String} (h : x ∉ l) :
    l.contains x = false := by
  cases hc : l.contains x
  · rfl
  · exact absurd (by simpa using hc) h

/-- A dependency whose id has not been seen is always materialized as a
node, whatever the recursion depth of the call. -/
theorem processDependency_unseen_mem (dep : Dep) (p : String)
    (st : List Element × List String) (h : st.2.contains dep.nodeId = false) :
    dep.nodeId ∈ nodeIds (processDependency dep p st).1 := by
  cases dep with
  | mk n v ch vu =>
    simp only [Dep.nodeId, Dep.name, Dep.version_id] at h ⊢
    simp only [processDependency_eq]
    rw [if_neg (by rw [h]; simp)]
    obtain ⟨e1, s1, he, hs⟩ :=
      processDepList_ext ch (formatNodeId n v)
        (st.1 ++ [depNodeElem (.mk n v ch vu)], st.2 ++ [formatNodeId n v])
    rw [he, nodeIds_append, nodeIds_edge, nodeIds_append, nodeIds_append,
      nodeIds_depNodeElem]
    simp [Dep.nodeId, Dep.name, Dep.version_id]

/-- A string of `n` z characters; used to build arbitrarily deep chains of
dependencies with pairwise distinct ids. -/
def zs : Nat → String
  | 0 => ""
  | n + 1 => "z" ++ zs n

/-- A linear dependency chain of depth `n + 1`: component `c`, version
`zs (n+1)`, depending on the chain of depth `n`. -/
def chainDep : Nat → Dep
  | 0 => Dep.mk "c" (zs 1) [] []
  | n + 1 => Dep.mk "c" (zs (n + 2)) [chainDep n] []

/-- The node id of the chain element of depth `n` (counted from the deep
end: `chainId 0` is the deepest node). -/
def chainId (n : Nat) : String := formatNodeId "c" (zs (n + 1))

theorem zs_length : ∀ n, (zs n).length = n
  | 0 => rfl
  | n + 1 => by
    rw [zs, String.length_append, zs_length n]
    have h1 : "z".length = 1 := rfl
    omega

theorem chainId_inj {j k : Nat} (h : chainId j = chainId k) : j = k := by
  have hlen := congrArg String.length h
  simp only [chainId, formatNodeId, String.length_append, zs_length] at hlen
  omega

theorem chainDep_nodeId : ∀ n, (chainDep n).nodeId = chainId n
  | 0 => rfl
  | _ + 1 => rfl

/-- The deepest node of an arbitrarily deep chain is materialized: there is
no depth bound in the traversal. -/
theorem chain_deep_mem : ∀ (n : Nat) (p : String) (st : List Element × List String),
    (∀ k, k ≤ n → chainId k ∉ st.2) →
    chainId 0 ∈ nodeIds (processDependency (chainDep n) p st).1
  | 0, p, st, hseen => by
    have h : st.2.contains (chainDep 0).nodeId = false := by
      rw [chainDep_nodeId]
      exact contains_eq_false_of_not_mem (hseen 0 (Nat.le_refl 0))
    have hm := processDependency_unseen_mem (chainDep 0) p st h
    rw [chainDep_nodeId] at hm
    exact hm
  | n + 1, p, st, hseen => by
    rw [show chainDep (n + 1) = Dep.mk "c" (zs (n + 2)) [chainDep n] [] from rfl]
    simp only [processDependency_eq]
    have hnotin : ¬(st.2.contains (formatNodeId "c" (zs (n + 2))) = true) := by
      intro hc
      exact hseen (n + 1) (Nat.le_refl _) (by simpa [chainId] using hc)
    rw [if_neg hnotin]
    rw [processDepList_cons, processDepList_nil]
    have hseen' : ∀ k, k ≤ n → chainId k ∉
        (st.1 ++ [depNodeElem (.mk "c" (zs (n + 2)) [chainDep n] [])],
         st.2 ++ [formatNodeId "c" (zs (n + 2))]).2 := by
      intro k hk hmem
      rcases List.mem_append.mp hmem with hm | hm
      · exact hseen k (Nat.le_succ_of_le hk) hm
      · have heq : chainId k = chainId (n + 1) := by
          simpa [chainId] using List.mem_singleton.mp hm
        have := chainId_inj heq
        omega
    have hmem := chain_deep_mem n (formatNodeId "c" (zs (n + 2))) _ hseen'
    rw [nodeIds_append, nodeIds_edge]
    simpa using hmem

/-! ### Claim theorems -/

/-- C1 (counterexample): node ids are NOT always unique. When a root
version's id coincides with a dependency id materialized earlier (here the
dependency `a-0` of version `1`, followed by root version `0` of component
`a`), the root-version loop pushes a second node with the same id `a-0`,
because root nodes are pushed without consulting the `seen` set. -/
theorem c1_counterexample :
    (nodeIds (convertSbomToGraphElements
      { name := "a",
        versions := [⟨"1", some [Dep.mk "a" "0" [] []], none⟩,
                     ⟨"0", none, none⟩] })).count "a-0" = 2 := by
  decide

/-- C1 (amended): node ids are unique in the produced element list provided
the root version ids are pairwise distinct and no dependency id collides
with a root version id; under that proviso dependency nodes are always
deduplicated against the global seen set, so a diamond dependency (the
concrete conjuncts: `c-1` reachable from both `p1-1` and `p2-1`) yields
exactly one node element and one incoming edge per reference. -/
theorem c1_node_id_uniqueness :
    (∀ sbom : Sbom,
      (sbom.versions.map (fun v => formatNodeId sbom.name v.version_id)).Nodup →
      (∀ i ∈ allSbomDepIds sbom.versions,
        i ∉ sbom.versions.map (fun v => formatNodeId sbom.name v.version_id)) →
      (nodeIds (convertSbomToGraphElements sbom)).Nodup) ∧
    (nodeIds (convertSbomToGraphElements
      { name := "r",
        versions := [⟨"1", some [Dep.mk "p1" "1" [Dep.mk "c" "1" [] []] [],
                                 Dep.mk "p2" "1" [Dep.mk "c" "1" [] []] []], none⟩] })).count
      "c-1" = 1 ∧
    (edgeTargets (convertSbomToGraphElements
      { name := "r",
        versions := [⟨"1", some [Dep.mk "p1" "1" [Dep.mk "c" "1" [] []] [],
                                 Dep.mk "p2" "1" [Dep.mk "c" "1" [] []] []], none⟩] })).count
      "c-1" = 2 := by
  refine ⟨?_, by decide, by decide⟩
  intro sbom h4 h5
  by_cases hn : sbom.name = ""
  · simp only [convertSbomToGraphElements]
    rw [if_pos hn]
    exact List.nodup_nil
  · simp only [convertSbomToGraphElements]
    rw [if_neg hn]
    have hperm : List.Perm
        ((sortVersionsDesc sbom.versions).map (fun v => formatNodeId sbom.name v.version_id))
        (sbom.versions.map (fun v => formatNodeId sbom.name v.version_id)) :=
      (perm_sortLe versionDescLe sbom.versions).map _
    refine processVersions_nodup sbom.name (sortVersionsDesc sbom.versions) 0 ([], [])
      List.nodup_nil ?_ ?_ ?_ ?_
    · intro i hi
      exact absurd hi (by simp [nodeIds])
    · intro i hi
      exact absurd hi (List.not_mem_nil i)
    · exact hperm.nodup_iff.mpr h4
    · intro i hi hmem
      have hi' : i ∈ allSbomDepIds sbom.versions := by
        rcases mem_allSbomDepIds.mp hi with ⟨v, hv, hiv⟩
        exact mem_allSbomDepIds.mpr ⟨v, mem_sortVersionsDesc.mp hv, hiv⟩
      exact h5 i hi' (hperm.mem_iff.mp hmem)

/-- C1 (witness): a concrete SBOM with distinct root ids and disjoint
dependency ids has unique node ids. -/
theorem c1_witness :
    (nodeIds (convertSbomToGraphElements
      { name := "zlib",
        versions := [⟨"1.2.11", some [Dep.mk "libpng" "1.6.0" [] []], none⟩,
                     ⟨"1.2.8", none, none⟩] })).Nodup :=
  c1_node_id_uniqueness.1 _ (by decide) (by decide)

/-- C2: graph-element construction is total (the model is a terminating
function), and a dependency whose id is already in the seen set — which
holds in particular for every node whose id recurs in its own ancestry,
since an id is added to the seen set before its children are expanded —
produces exactly the synthetic marker edge and no node and no recursion;
the seen set only grows. Concretely, the self-cycle `a-1 → a-1` yields one
node and one marker edge `a-1 → a-1`, and the would-be subtree below the
repeated node (`b-9`) is truncated away. -/
theorem c2_cycle_truncation :
    (∀ (dep : Dep) (parentId : String) (st : List Element × List String),
      (st.2.contains dep.nodeId = true →
        processDependency dep parentId st =
          (st.1 ++ [Element.edge (parentId ++ "-" ++ dep.nodeId) parentId dep.nodeId],
           st.2)) ∧
      (st.2.contains dep.nodeId = false →
        processDependency dep parentId st =
          ((processDepList dep.dependencies dep.nodeId
              (st.1 ++ [depNodeElem dep], st.2 ++ [dep.nodeId])).1 ++
            [Element.edge (parentId ++ "-" ++ dep.nodeId) parentId dep.nodeId],
           (processDepList dep.dependencies dep.nodeId
              (st.1 ++ [depNodeElem dep], st.2 ++ [dep.nodeId])).2) ∧
        (st.2 ++ [dep.nodeId]).contains dep.nodeId = true) ∧
      (∀ x, st.2.contains x = true →
        (processDependency dep parentId st).2.contains x = true)) ∧
    convertSbomToGraphElements
      { name := "a",
        versions := [⟨"1", some [Dep.mk "a" "1" [Dep.mk "b" "9" [] []] []], none⟩] } =
      [rootVersionElem "a" ⟨"1", some [Dep.mk "a" "1" [Dep.mk "b" "9" [] []] []], none⟩ 0,
       Element.edge "a-1-a-1" "a-1" "a-1"] := by
  refine ⟨?_, by decide⟩
  intro dep parentId st
  cases dep with
  | mk n v ch vu =>
    refine ⟨?_, ?_, ?_⟩
    · intro h
      simp only [Dep.nodeId, Dep.name, Dep.version_id] at h ⊢
      simp only [processDependency_eq]
      rw [if_pos h]
    · intro h
      simp only [Dep.nodeId, Dep.name, Dep.version_id, Dep.dependencies] at h ⊢
      constructor
      · simp only [processDependency_eq]
        rw [if_neg (by rw [h]; simp)]
      · simp
    · intro x hx
      obtain ⟨e, s, he, hs⟩ := processDependency_ext (.mk n v ch vu) parentId st
      rw [hs]
      have hx' : x ∈ st.2 := by simpa using hx
      simp [hx']

/-- C2 (witness): processing a dependency whose id is already seen appends
exactly one marker edge and nothing else. -/
theorem c2_witness :
    processDependency (Dep.mk "libfoo" "2" [Dep.mk "x" "9" [] []] []) "p"
      ([], ["libfoo-2"]) =
      ([Element.edge "p-libfoo-2" "p" "libfoo-2"], ["libfoo-2"]) := by
  rw [(c2_cycle_truncation.1 (Dep.mk "libfoo" "2" [Dep.mk "x" "9" [] []] []) "p"
    ([], ["libfoo-2"])).1 (by decide)]
  decide

/-- C3: the SPDX and CycloneDX parsers are extensionally the generic custom
JSON parser — on every input (null included) all three produce exactly the
same document or all fail; there is no input on which the produced shapes
differ. This contradicts the specified per-standard schema mappings; the
spec itself flags the reference behavior as an incomplete placeholder. -/
theorem c3_spdx_cyclonedx_not_distinct : ∀ data : Option RawSbom,
    docOf (parseSpdx data) = docOf (parseCustomJson data) ∧
    docOf (parseCycloneDx data) = docOf (parseCustomJson data) := by
  intro data
  cases data with
  | none => exact ⟨rfl, rfl⟩
  | some d => exact ⟨rfl, rfl⟩

/-- C4 (counterexample): the selector `"JSON"` lies outside the literal set
`{json, spdx, cyclonedx}` yet `parseSbomData` succeeds on it, because the
code lower-cases the selector before dispatching. -/
theorem c4_counterexample :
    parseOk (parseSbomData
      (some ⟨some "zlib", some [⟨some "1.2.11", none, none⟩]⟩) "JSON") = true ∧
    ("JSON" : String) ≠ "json" ∧ ("JSON" : String) ≠ "spdx" ∧
    ("JSON" : String) ≠ "cyclonedx" := by
  refine ⟨rfl, by decide, by decide, by decide⟩

/-- C4 (amended): for every selector whose lower-casing is outside
`{json, spdx, cyclonedx}` (for example `"xml"`), `parseSbomData` fails with
an error and produces no document; it never falls back to the json
encoding. -/
theorem c4_unknown_format_rejected : ∀ (data : Option RawSbom) (format : String),
    jsToLower format ≠ "json" → jsToLower format ≠ "spdx" →
    jsToLower format ≠ "cyclonedx" →
    parseOk (parseSbomData data format) = false ∧
      docOf (parseSbomData data format) = none := by
  intro data format h1 h2 h3
  rw [parseSbomData_default data format h1 h2 h3]
  exact ⟨rfl, rfl⟩

/-- C4 (witness): requesting format `xml` fails and produces no document. -/
theorem c4_witness :
    parseOk (parseSbomData none "xml") = false ∧
      docOf (parseSbomData none "xml") = none :=
  c4_unknown_format_rejected none "xml" (by decide) (by decide) (by decide)

/-- C5: for every list of versions the sort shared by the graph builder and
the tree view is pairwise descending under the numeric-aware comparison;
in particular `1.2.11` compares above `1.2.8` and is placed first in both
sorted outputs and in the graph's node order. -/
theorem c5_numeric_descending_sort :
    (∀ vs : List SbomVersion,
      (sortVersionsDesc vs).Pairwise (fun a b => versionDescLe a b = true)) ∧
    (∀ data : Sbom,
      (treeSortedVersions data).Pairwise (fun a b => versionDescLe a b = true)) ∧
    numericCompare "1.2.11" "1.2.8" = .gt ∧
    (sortVersionsDesc [⟨"1.2.8", none, none⟩, ⟨"1.2.11", none, none⟩]).map
      SbomVersion.version_id = ["1.2.11", "1.2.8"] ∧
    (treeSortedVersions
      ⟨"zlib", [⟨"1.2.8", none, none⟩, ⟨"1.2.11", none, none⟩]⟩).map
      SbomVersion.version_id = ["1.2.11", "1.2.8"] ∧
    nodeIds (convertSbomToGraphElements
      ⟨"zlib", [⟨"1.2.8", none, none⟩, ⟨"1.2.11", none, none⟩]⟩) =
      ["zlib-1.2.11", "zlib-1.2.8"] := by
  exact ⟨sortVersionsDesc_sorted, fun data => sortVersionsDesc_sorted data.versions,
    by decide, by decide, by decide, by decide⟩

/-- C6 (counterexample): an input with a non-empty name and an EMPTY
versions array is accepted by every conversion — the code only checks
`Array.isArray(versions)`, never that the list is non-empty — contradicting
the claim that each conversion fails on an empty versions list. -/
theorem c6_counterexample :
    parseOk (parseCustomJson (some ⟨some "zlib", some []⟩)) = true ∧
    parseOk (parseSbomData (some ⟨some "zlib", some []⟩) "json") = true ∧
    parseOk (parseSbomData (some ⟨some "zlib", some []⟩) "spdx") = true ∧
    parseOk (parseSbomData (some ⟨some "zlib", some []⟩) "cyclonedx") = true ∧
    parseCustomJson (some ⟨some "zlib", some []⟩) =
      Except.ok { name := "zlib", versions := [] } := by
  exact ⟨rfl, rfl, rfl, rfl, rfl⟩

/-- C6 (amended): every conversion (custom json, spdx, cyclonedx, and the
three dispatched forms) accepts an input exactly when it is non-null, its
name is truthy and its versions field is an array — possibly empty; the
emptiness of `versions` is not validated. -/
theorem c6_validation : ∀ data : Option RawSbom,
    parseOk (parseCustomJson data) = acceptedByParser data ∧
    parseOk (parseSpdx data) = acceptedByParser data ∧
    parseOk (parseCycloneDx data) = acceptedByParser data ∧
    parseOk (parseSbomData data "json") = acceptedByParser data ∧
    parseOk (parseSbomData data "spdx") = acceptedByParser data ∧
    parseOk (parseSbomData data "cyclonedx") = acceptedByParser data := by
  intro data
  refine ⟨parseOk_parseCustomJson data, parseOk_parseSpdx data,
    parseOk_parseCycloneDx data, ?_, ?_, ?_⟩
  · rw [parseSbomData_json, parseOk_wrapError]
    exact parseOk_parseCustomJson data
  · rw [parseSbomData_spdx, parseOk_wrapError]
    exact parseOk_parseSpdx data
  · rw [parseSbomData_cyclonedx, parseOk_wrapError]
    exact parseOk_parseCycloneDx data

/-- C7 (counterexample): the node at depth 52 of a 52-deep linear chain is
materialized (`chainId 0`, the string `c-z`) — the branch is expanded far
beyond the claimed depth bound of 50 and no truncation happens. -/
theorem c7_counterexample :
    chainId 0 ∈ nodeIds (processDependency (chainDep 51) "root-1" ([], [])).1 ∧
    chainId 0 = "c-z" :=
  ⟨chain_deep_mem 51 "root-1" ([], []) (fun k _ => by simp), by decide⟩

/-- C7 (amended): traversal depth is not capped at all — there is no depth
counter in the code; a dependency whose id is unseen is materialized at any
recursion depth, and the deepest node of an arbitrarily deep chain is
always reached. -/
theorem c7_no_depth_cap :
    (∀ (dep : Dep) (p : String) (st : List Element × List String),
      st.2.contains dep.nodeId = false →
      dep.nodeId ∈ nodeIds (processDependency dep p st).1) ∧
    (∀ n : Nat, chainId 0 ∈ nodeIds (processDependency (chainDep n) "r-0" ([], [])).1) :=
  ⟨processDependency_unseen_mem,
   fun n => chain_deep_mem n "r-0" ([], []) (fun k _ => by simp)⟩

/-- C7 (witness): an unseen dependency is materialized. -/
theorem c7_witness :
    (Dep.mk "libpng" "1.6.0" [] []).nodeId ∈
      nodeIds (processDependency (Dep.mk "libpng" "1.6.0" [] []) "zlib-1.2.11"
        ([], [])).1 :=
  c7_no_depth_cap.1 (Dep.mk "libpng" "1.6.0" [] []) "zlib-1.2.11" ([], []) (by decide)

/-- C8 (counterexample): root version `0` of component `a` has an empty
dependency list, yet the element list contains an edge whose source is its
node id `a-0`, because a dependency node with the same id (materialized
under version `1`) expanded children of its own. -/
theorem c8_counterexample :
    "a-0" ∈ edgeSources (convertSbomToGraphElements
      { name := "a",
        versions := [⟨"1", some [Dep.mk "a" "0" [Dep.mk "b" "2" [] []] []], none⟩,
                     ⟨"0", some [], none⟩] }) ∧
    depsNonempty (some ([] : List Dep)) = false := by
  exact ⟨by decide, rfl⟩

/-- C8 (amended): a version with an empty or absent dependency list
resolves to a leaf — its node is in the element list and no edge has its id
as source — provided its id does not occur among the dependency ids of the
input and every root version carrying the same id also has an empty or
absent dependency list; materialization never fails (the builder is a total
function). -/
theorem c8_leaf_no_outgoing : ∀ (sbom : Sbom) (v : SbomVersion),
    sbom.name ≠ "" →
    v ∈ sbom.versions →
    (∀ w ∈ sbom.versions,
      formatNodeId sbom.name w.version_id = formatNodeId sbom.name v.version_id →
      depsNonempty w.dependencies = false) →
    formatNodeId sbom.name v.version_id ∉ allSbomDepIds sbom.versions →
    formatNodeId sbom.name v.version_id ∈ nodeIds (convertSbomToGraphElements sbom) ∧
      formatNodeId sbom.name v.version_id ∉
        edgeSources (convertSbomToGraphElements sbom) := by
  intro sbom v hn hv hid hdep
  have hconv : convertSbomToGraphElements sbom =
      (processVersions sbom.name (sortVersionsDesc sbom.versions) 0 ([], [])).1 := by
    simp only [convertSbomToGraphElements]
    rw [if_neg hn]
  constructor
  · rw [hconv]
    exact processVersions_mem sbom.name _ 0 ([], []) v (mem_sortVersionsDesc.mpr hv)
  · rw [hconv]
    intro hmem
    rcases processVersions_src_bound sbom.name _ 0 ([], []) _ hmem with h0 | ⟨w, hw, hne, hxw⟩
    · exact absurd h0 (by simp [edgeSources])
    · have hwv : w ∈ sbom.versions := mem_sortVersionsDesc.mp hw
      rcases hxw with heq | hin
      · rw [hid w hwv heq.symm] at hne
        exact absurd hne (by decide)
      · exact hdep (mem_allSbomDepIds.mpr ⟨w, hwv, hin⟩)

/-- C8 (witness): the dependency-free version `1.2.8` of `zlib` is a leaf:
its node is present and no edge leaves it. -/
theorem c8_witness :
    formatNodeId "zlib" "1.2.8" ∈ nodeIds (convertSbomToGraphElements
      { name := "zlib",
        versions := [⟨"1.2.11", some [Dep.mk "libpng" "1.6.0" [] []], none⟩,
                     ⟨"1.2.8", none, none⟩] }) ∧
    formatNodeId "zlib" "1.2.8" ∉ edgeSources (convertSbomToGraphElements
      { name := "zlib",
        versions := [⟨"1.2.11", some [Dep.mk "libpng" "1.6.0" [] []], none⟩,
                     ⟨"1.2.8", none, none⟩] }) :=
  c8_leaf_no_outgoing
    { name := "zlib",
      versions := [⟨"1.2.11", some [Dep.mk "libpng" "1.6.0" [] []], none⟩,
                   ⟨"1.2.8", none, none⟩] }
    ⟨"1.2.8", none, none⟩ (by decide) (by simp) (by decide) (by decide)

/-- C9 (counterexample): the tree view initially expands the FIRST version
of the unsorted input (`zlib-1.2.8` here), not the latest version
(`1.2.11`, the head of the descending sort), so the initially expanded
node is not the display root. -/
theorem c9_counterexample :
    initialExpandedNodes
      ⟨"zlib", [⟨"1.2.8", none, none⟩, ⟨"1.2.11", none, none⟩]⟩ = ["zlib-1.2.8"] ∧
    (treeSortedVersions
      ⟨"zlib", [⟨"1.2.8", none, none⟩, ⟨"1.2.11", none, none⟩]⟩).map
      SbomVersion.version_id = ["1.2.11", "1.2.8"] ∧
    ("zlib-1.2.8" : String) ≠ "zlib-1.2.11" := by
  exact ⟨rfl, by decide, by decide⟩

/-- C9 (amended): for every SBOM with a non-empty name and at least one
version, every version appears as a node; exactly one element carries the
`root` class, namely the head of the descending sort (the latest version),
which is also the first produced element; but the initially expanded node
of the tree view is built from the first version in the input's original
order, which need not be the latest. -/
theorem c9_root_marking : ∀ (sbom : Sbom) (v : SbomVersion) (rest : List SbomVersion),
    sbom.name ≠ "" →
    sortVersionsDesc sbom.versions = v :: rest →
    (∀ w ∈ sbom.versions,
      formatNodeId sbom.name w.version_id ∈ nodeIds (convertSbomToGraphElements sbom)) ∧
    (convertSbomToGraphElements sbom).countP (fun e => isRootMarked e) = 1 ∧
    (convertSbomToGraphElements sbom).head? = some (rootVersionElem sbom.name v 0) ∧
    (∀ (v0 : SbomVersion) (t : List SbomVersion), sbom.versions = v0 :: t →
      initialExpandedNodes sbom = [formatNodeId sbom.name v0.version_id]) := by
  intro sbom v rest hn hs
  have hconv : convertSbomToGraphElements sbom =
      (processVersions sbom.name (v :: rest) 0 ([], [])).1 := by
    simp only [convertSbomToGraphElements]
    rw [if_neg hn, hs]
  refine ⟨?_, ?_, ?_, ?_⟩
  · intro w hw
    rw [hconv]
    have hw' : w ∈ v :: rest := by
      rw [← hs]
      exact mem_sortVersionsDesc.mpr hw
    exact processVersions_mem sbom.name _ 0 ([], []) w hw'
  · rw [hconv, processVersions_cons,
      processVersions_rootCount_tail sbom.name rest (0 + 1) _ (by omega),
      processChildren_rootCount, List.countP_append, List.countP_cons]
    simp [isRootMarked_rootVersionElem]
  · rw [hconv, processVersions_cons]
    obtain ⟨e1, s1, he1, hs1⟩ :=
      processChildren_ext v.dependencies (formatNodeId sbom.name v.version_id)
        (([], ([] : List String)).1 ++ [rootVersionElem sbom.name v 0],
         ([], ([] : List String)).2 ++ [formatNodeId sbom.name v.version_id])
    obtain ⟨e2, s2, he2, hs2⟩ := processVersions_ext sbom.name rest (0 + 1) _
    rw [he2, he1]
    simp
  · intro v0 t hvt
    simp [initialExpandedNodes, hvt]

/-- C9 (witness): on the two-version zlib input the graph marks exactly one
node with the root class. -/
theorem c9_witness :
    (convertSbomToGraphElements
      ⟨"zlib", [⟨"1.2.8", none, none⟩, ⟨"1.2.11", none, none⟩]⟩).countP
      (fun e => isRootMarked e) = 1 :=
  (c9_root_marking ⟨"zlib", [⟨"1.2.8", none, none⟩, ⟨"1.2.11", none, none⟩]⟩
    ⟨"1.2.11", none, none⟩ [⟨"1.2.8", none, none⟩] (by decide) rfl).2.1

/-- C10: the custom JSON parser normalizes rather than rejects: on any
accepted input every output version is the normalization of the raw one —
a missing version id becomes the literal `"unknown"`, missing dependencies
and vulnerabilities become empty arrays, and all three fields are present
on every parsed version. -/
theorem c10_normalization : ∀ (d : RawSbom) (vs : List RawVersion),
    truthyStr d.name = true →
    d.versions = some vs →
    ∃ out : Sbom, parseCustomJson (some d) = Except.ok out ∧
      out.versions = vs.map normalizeVersion ∧
      ∀ v ∈ vs,
        (v.version_id = none → (normalizeVersion v).version_id = "unknown") ∧
        (v.dependencies = none → (normalizeVersion v).dependencies = some []) ∧
        (v.vulnerabilities = none → (normalizeVersion v).vulnerabilities = some []) ∧
        (normalizeVersion v).dependencies.isSome = true ∧
        (normalizeVersion v).vulnerabilities.isSome = true := by
  intro d vs hname hvs
  refine ⟨⟨d.name.getD "", vs.map normalizeVersion⟩, ?_, rfl, ?_⟩
  · simp only [parseCustomJson]
    rw [if_neg (by rw [hname]; simp), hvs]
  · intro v hv
    refine ⟨?_, ?_, ?_, rfl, rfl⟩
    · intro h
      simp [normalizeVersion, h]
    · intro h
      simp [normalizeVersion, h]
    · intro h
      simp [normalizeVersion, h]

/-- C10 (witness): a version with all fields missing parses to
`{version_id := "unknown", dependencies := [], vulnerabilities := []}`. -/
theorem c10_witness :
    ∃ out : Sbom,
      parseCustomJson (some ⟨some "zlib", some [⟨none, none, none⟩]⟩) = Except.ok out ∧
      out.versions = [(⟨none, none, none⟩ : RawVersion)].map normalizeVersion ∧
      ∀ v ∈ [(⟨none, none, none⟩ : RawVersion)],
        (v.version_id = none → (normalizeVersion v).version_id = "unknown") ∧
        (v.dependencies = none → (normalizeVersion v).dependencies = some []) ∧
        (v.vulnerabilities = none → (normalizeVersion v).vulnerabilities = some []) ∧
        (normalizeVersion v).dependencies.isSome = true ∧
        (normalizeVersion v).vulnerabilities.isSome = true :=
  c10_normalization ⟨some "zlib", some [⟨none, none, none⟩]⟩ [⟨none, none, none⟩]
    (by decide) rfl

end SecureChainKG
